import Mathlib

/-!
Verification of the pushdown-automaton engine in `src/TOC.py`
(`class PDASimulator` and the pizza-ordering configuration).

The embedding is shallow: the simulator object becomes a `structure`
holding the seven configuration attributes stored by `__init__` and the
three mutable attributes set by `reset`; the methods `reset`, `step` and
`run` become pure functions threading that structure.  `step` returns
`Option` because the source line `popped_symbol = self.stack.pop(0)`
raises `IndexError` when the stack is empty (reachable only through a
transition keyed on an absent stack top); `none` models that exception.
-/

namespace TOC

/-- States and symbols are plain strings in the source. -/
abbrev State := String

abbrev Symbol := String

/-- One record of `self.log`: the five fields of the dict appended by
`step` and `run` ("Input", "Action", "New State", "Stack", "Result"). -/
structure LogEntry where
  input : String
  action : String
  new_state : State
  stack : String
  result : String
deriving DecidableEq, Repr

/-- The `PDASimulator` object: the seven configuration attributes stored by
`__init__` plus the three run-state attributes written by `reset`.
Python sets become lists (only membership is ever used); the transition
dict becomes an association list. -/
structure PDASimulator where
  states : List State
  input_alphabet : List Symbol
  stack_alphabet : List Symbol
  transitions : List ((State × Symbol × Option Symbol) × (State × List Symbol))
  start_state : State
  start_stack_symbol : Symbol
  accept_states : List State
  current_state : State
  stack : List Symbol
  log : List LogEntry
deriving DecidableEq, Repr

/-- Dict lookup: `key in self.transitions` is `(lookupT key l).isSome` and
`self.transitions[key]` is its value (dict keys are unique, so
first-match lookup agrees with the dict). -/
def lookupT (key : State × Symbol × Option Symbol) :
    List ((State × Symbol × Option Symbol) × (State × List Symbol)) →
      Option (State × List Symbol)
  | [] => none
  | (k, v) :: rest => if k = key then some v else lookupT key rest

/-- `PDASimulator.reset`: `current_state = start_state`,
`stack = [start_stack_symbol]`, `log = []`. -/
def reset (p : PDASimulator) : PDASimulator :=
  { p with
    current_state := p.start_state
    stack := [p.start_stack_symbol]
    log := [] }

/-- `PDASimulator.__init__`: stores the seven configuration arguments and
calls `reset` (no validation of any kind is performed). -/
def mkPDASimulator (states : List State) (input_alphabet stack_alphabet : List Symbol)
    (transitions : List ((State × Symbol × Option Symbol) × (State × List Symbol)))
    (start_state : State) (start_stack_symbol : Symbol)
    (accept_states : List State) : PDASimulator :=
  { states := states
    input_alphabet := input_alphabet
    stack_alphabet := stack_alphabet
    transitions := transitions
    start_state := start_state
    start_stack_symbol := start_stack_symbol
    accept_states := accept_states
    current_state := start_state
    stack := [start_stack_symbol]
    log := [] }

/-- `PDASimulator.get_stack_visualization`: `"[] (Empty)"` for an empty
stack, otherwise the elements joined by `" | "` inside brackets. -/
def get_stack_visualization (p : PDASimulator) : String :=
  if p.stack = [] then "[] (Empty)"
  else "[" ++ String.intercalate " | " p.stack ++ "]"

/-- The dict appended in the invalid-symbol branch of `step`, lines 46-52. -/
def invalid_entry (p : PDASimulator) (symbol : Symbol) : LogEntry :=
  { input := "'" ++ symbol ++ "'"
    action := "ERROR: Input not in alphabet."
    new_state := p.current_state
    stack := get_stack_visualization p
    result := "Halted 🛑" }

/-- The dict appended in the transition-applying branch of `step`, lines
70-77; `p2` is the simulator after the pop and the pushes (the source
appends this record after mutating the stack and before assigning
`current_state`). -/
def applied_entry (symbol popped_symbol : Symbol) (push_symbols : List Symbol)
    (next_state : State) (p2 : PDASimulator) : LogEntry :=
  { input := "'" ++ symbol ++ "'"
    action := "Pop '" ++ popped_symbol ++ "'. Push '" ++
      (if push_symbols.isEmpty then "ε" else String.join push_symbols) ++ "'. "
    new_state := next_state
    stack := get_stack_visualization p2
    result := "Success ✔️" }

/-- The dict appended in the no-transition branch of `step`, lines 81-87
(Python renders the absent stack top as the text `None`). -/
def stuck_entry (p : PDASimulator) (symbol : Symbol) : LogEntry :=
  { input := "'" ++ symbol ++ "'"
    action := "No transition for (" ++ p.current_state ++ ", " ++ symbol ++ ", " ++
      (p.stack.head?).getD "None" ++ ")"
    new_state := p.current_state
    stack := get_stack_visualization p
    result := "Stuck ❌" }

/-- The initial dict appended by `run`, lines 95-101. -/
def start_entry (p0 : PDASimulator) : LogEntry :=
  { input := "ε (start)"
    action := "Initial configuration"
    new_state := p0.current_state
    stack := get_stack_visualization p0
    result := "Start 🚀" }

/-- `PDASimulator.step`.  Branches, in source order: the invalid-symbol
branch (lines 45-53), the transition-applying branch (lines 59-79, where
`self.stack.pop(0)` on an empty stack raises `IndexError`, modelled as
`none`), and the no-transition branch (lines 80-88).  The `Bool` is the
returned `True`/`False`.  The peek `self.stack[0] if self.stack else None`
is `p.stack.head?`; `reversed(push_symbols)` inserted one by one at
index 0 prepends `push_symbols` in order. -/
def step (p : PDASimulator) (symbol : Symbol) : Option (PDASimulator × Bool) :=
  if symbol ∉ p.input_alphabet then
    some ({ p with log := p.log ++ [invalid_entry p symbol] }, false)
  else
    match lookupT (p.current_state, symbol, p.stack.head?) p.transitions with
    | some (next_state, push_symbols) =>
      match p.stack with
      | [] => none
      | popped_symbol :: rest =>
        let p2 := { p with stack := push_symbols ++ rest }
        some ({ p2 with
          log := p2.log ++ [applied_entry symbol popped_symbol push_symbols next_state p2]
          current_state := next_state }, true)
    | none =>
      some ({ p with log := p.log ++ [stuck_entry p symbol] }, false)

/-- The first part of `PDASimulator.run` (lines 92-101): `self.reset()`
followed by appending the initial "Start 🚀" record. -/
def startLogged (p : PDASimulator) : PDASimulator :=
  { reset p with log := (reset p).log ++ [start_entry (reset p)] }

/-- The loop of `PDASimulator.run` (lines 103-111): feed the symbols one at
a time, returning "Rejected" as soon as a `step` returns `False`, and on
exhausted input "Accepted" iff `current_state in accept_states`.  The
returned simulator carries the final run state (in particular the trace). -/
def runLoop (p : PDASimulator) : List Symbol → Option (PDASimulator × String)
  | [] => some (p, if p.current_state ∈ p.accept_states then "Accepted" else "Rejected")
  | symbol :: rest =>
    match step p symbol with
    | none => none
    | some (p2, true) => runLoop p2 rest
    | some (p2, false) => some (p2, "Rejected")

/-- `PDASimulator.run`. -/
def run (p : PDASimulator) (sequence : List Symbol) : Option (PDASimulator × String) :=
  runLoop (startLogged p) sequence

/-- Specification vocabulary: the state after every symbol of the list has
been processed by a transition-applying (`True`-returning) `step`, `none`
when some step halts, gets stuck or raises. -/
def consumeAll (p : PDASimulator) : List Symbol → Option PDASimulator
  | [] => some p
  | symbol :: rest =>
    match step p symbol with
    | some (p2, true) => consumeAll p2 rest
    | _ => none

/-- Specification vocabulary: how many `step` calls `run`'s loop makes on
this input (every call counts, including the final halting one). -/
def stepCalls (p : PDASimulator) : List Symbol → Nat
  | [] => 0
  | symbol :: rest =>
    match step p symbol with
    | some (p2, true) => 1 + stepCalls p2 rest
    | _ => 1

/-- Specification vocabulary: two simulators share the same Definition
(the seven configuration attributes). -/
def SameDef (p q : PDASimulator) : Prop :=
  p.states = q.states ∧ p.input_alphabet = q.input_alphabet ∧
  p.stack_alphabet = q.stack_alphabet ∧ p.transitions = q.transitions ∧
  p.start_state = q.start_state ∧ p.start_stack_symbol = q.start_stack_symbol ∧
  p.accept_states = q.accept_states

/-- The module-level pizza-ordering configuration, lines 116-121. -/
def states : List State := ["q_start", "q_ordering", "q_done"]

def input_alphabet : List Symbol := ["order", "pizza", "toppings", "done", "pay"]

def stack_alphabet : List Symbol := ["O", "P", "T", "Z0"]

def start_state : State := "q_start"

def start_stack_symbol : Symbol := "Z0"

def accept_states : List State := ["q_done"]

/-- The six transition rules of the pizza-ordering PDA, lines 124-138. -/
def transitions : List ((State × Symbol × Option Symbol) × (State × List Symbol)) :=
  [(("q_start", "order", some "Z0"), ("q_ordering", ["O", "Z0"])),
   (("q_ordering", "pizza", some "O"), ("q_ordering", ["P", "O"])),
   (("q_ordering", "toppings", some "P"), ("q_ordering", ["T", "P"])),
   (("q_ordering", "done", some "T"), ("q_ordering", [])),
   (("q_ordering", "done", some "P"), ("q_ordering", [])),
   (("q_ordering", "pay", some "O"), ("q_done", []))]

/-- `pizza_bot = PDASimulator(states, input_alphabet, stack_alphabet,
transitions, start_state, start_stack_symbol, accept_states)`, line 228. -/
def pizza_bot : PDASimulator :=
  mkPDASimulator states input_alphabet stack_alphabet transitions
    start_state start_stack_symbol accept_states

/-- Specification vocabulary for the pizza configuration: the stack is a
(possibly empty) list of non-sentinel symbols on top of the single
sentinel `"Z0"`. -/
def PizzaStack (l : List Symbol) : Prop :=
  ∃ m, l = m ++ ["Z0"] ∧ "Z0" ∉ m

/-- The pizza-ordering simulator with its stack artificially emptied, used
to exercise `step` on an empty stack. -/
def pizza_empty : PDASimulator :=
  { pizza_bot with stack := [] }

/-! ### Helper lemmas about `step` -/

lemma step_of_not_mem (p : PDASimulator) (symbol : Symbol)
    (h : symbol ∉ p.input_alphabet) :
    step p symbol = some ({ p with log := p.log ++ [invalid_entry p symbol] }, false) := by
  unfold step
  rw [if_pos h]

lemma step_of_stuck (p : PDASimulator) (symbol : Symbol)
    (hmem : symbol ∈ p.input_alphabet)
    (hlk : lookupT (p.current_state, symbol, p.stack.head?) p.transitions = none) :
    step p symbol = some ({ p with log := p.log ++ [stuck_entry p symbol] }, false) := by
  unfold step
  rw [if_neg (not_not_intro hmem), hlk]

lemma step_of_apply (p : PDASimulator) (symbol popped : Symbol) (rest : List Symbol)
    (next_state : State) (push_symbols : List Symbol)
    (hmem : symbol ∈ p.input_alphabet)
    (hstk : p.stack = popped :: rest)
    (hlk : lookupT (p.current_state, symbol, p.stack.head?) p.transitions =
      some (next_state, push_symbols)) :
    step p symbol = some ({ p with
      current_state := next_state
      stack := push_symbols ++ rest
      log := p.log ++ [applied_entry symbol popped push_symbols next_state
        { p with stack := push_symbols ++ rest }] }, true) := by
  unfold step
  rw [if_neg (not_not_intro hmem), hlk, hstk]

lemma sameDef_refl (p : PDASimulator) : SameDef p p :=
  ⟨rfl, rfl, rfl, rfl, rfl, rfl, rfl⟩

lemma sameDef_trans (p q r : PDASimulator) (h1 : SameDef p q) (h2 : SameDef q r) :
    SameDef p r :=
  ⟨h1.1.trans h2.1, h1.2.1.trans h2.2.1, h1.2.2.1.trans h2.2.2.1,
   h1.2.2.2.1.trans h2.2.2.2.1, h1.2.2.2.2.1.trans h2.2.2.2.2.1,
   h1.2.2.2.2.2.1.trans h2.2.2.2.2.2.1, h1.2.2.2.2.2.2.trans h2.2.2.2.2.2.2⟩

lemma startLogged_sameDef (p : PDASimulator) : SameDef (startLogged p) p :=
  ⟨rfl, rfl, rfl, rfl, rfl, rfl, rfl⟩

/-- Inversion for a `step` call that returned (did not raise): exactly one
record is appended, the configuration attributes are untouched, the stack
either stays or follows the matched transition, and a `False` return
leaves state and stack unchanged. -/
lemma step_some_inv (p : PDASimulator) (symbol : Symbol) (q : PDASimulator) (b : Bool)
    (h : step p symbol = some (q, b)) :
    (∃ e, q.log = p.log ++ [e]) ∧ SameDef q p ∧
      (q.stack = p.stack ∨ ∃ popped rest next_state push_symbols,
        p.stack = popped :: rest ∧
        lookupT (p.current_state, symbol, some popped) p.transitions =
          some (next_state, push_symbols) ∧
        q.stack = push_symbols ++ rest ∧ q.current_state = next_state) ∧
      (b = false → q.current_state = p.current_state ∧ q.stack = p.stack) := by
  unfold step at h
  split at h
  · simp only [Option.some.injEq, Prod.mk.injEq] at h
    obtain ⟨h1, h2⟩ := h
    subst h1; subst h2
    exact ⟨⟨_, rfl⟩, ⟨rfl, rfl, rfl, rfl, rfl, rfl, rfl⟩, Or.inl rfl, fun _ => ⟨rfl, rfl⟩⟩
  · split at h
    · rename_i next_state push_symbols heq
      split at h
      · exact Option.noConfusion h
      · rename_i popped rest heq2
        simp only [Option.some.injEq, Prod.mk.injEq] at h
        obtain ⟨h1, h2⟩ := h
        subst h1; subst h2
        rw [heq2] at heq
        simp only [List.head?] at heq
        refine ⟨⟨_, rfl⟩, ⟨rfl, rfl, rfl, rfl, rfl, rfl, rfl⟩,
          Or.inr ⟨popped, rest, next_state, push_symbols, heq2, heq, rfl, rfl⟩,
          fun hb => absurd hb (by decide)⟩
    · rename_i heq
      simp only [Option.some.injEq, Prod.mk.injEq] at h
      obtain ⟨h1, h2⟩ := h
      subst h1; subst h2
      exact ⟨⟨_, rfl⟩, ⟨rfl, rfl, rfl, rfl, rfl, rfl, rfl⟩, Or.inl rfl, fun _ => ⟨rfl, rfl⟩⟩

/-! ### Helper lemmas about the run loop -/

lemma consumeAll_sameDef (l : List Symbol) :
    ∀ p q : PDASimulator, consumeAll p l = some q → SameDef q p := by
  induction l with
  | nil =>
    intro p q h
    simp only [consumeAll, Option.some.injEq] at h
    subst h
    exact sameDef_refl p
  | cons symbol rest ih =>
    intro p q h
    unfold consumeAll at h
    split at h
    · rename_i p2 heq
      exact sameDef_trans _ _ _ (ih p2 q h) (step_some_inv p symbol p2 true heq).2.1
    · exact Option.noConfusion h

lemma runLoop_sameDef (l : List Symbol) :
    ∀ (p q : PDASimulator) (v : String), runLoop p l = some (q, v) → SameDef q p := by
  induction l with
  | nil =>
    intro p q v h
    simp only [runLoop, Option.some.injEq, Prod.mk.injEq] at h
    obtain ⟨h1, -⟩ := h
    subst h1
    exact sameDef_refl p
  | cons symbol rest ih =>
    intro p q v h
    unfold runLoop at h
    split at h
    · exact Option.noConfusion h
    · rename_i p2 heq
      exact sameDef_trans _ _ _ (ih p2 q v h) (step_some_inv p symbol p2 true heq).2.1
    · rename_i p2 heq
      simp only [Option.some.injEq, Prod.mk.injEq] at h
      obtain ⟨h1, -⟩ := h
      subst h1
      exact (step_some_inv p symbol p2 false heq).2.1

/-- The verdict "Accepted" is returned exactly when every symbol was
consumed by a `True`-returning `step` and the final state is accepting. -/
lemma runLoop_accepted (l : List Symbol) :
    ∀ p q : PDASimulator, (runLoop p l = some (q, "Accepted") ↔
      consumeAll p l = some q ∧ q.current_state ∈ q.accept_states) := by
  induction l with
  | nil =>
    intro p q
    simp only [runLoop, consumeAll, Option.some.injEq, Prod.mk.injEq]
    by_cases hm : p.current_state ∈ p.accept_states
    · rw [if_pos hm]
      constructor
      · rintro ⟨h1, -⟩
        subst h1
        exact ⟨rfl, hm⟩
      · rintro ⟨h1, -⟩
        subst h1
        exact ⟨rfl, rfl⟩
    · rw [if_neg hm]
      constructor
      · rintro ⟨-, h2⟩
        exact absurd h2 (by decide)
      · rintro ⟨h1, h2⟩
        subst h1
        exact absurd h2 hm
  | cons symbol rest ih =>
    intro p q
    unfold runLoop consumeAll
    split
    · rename_i heq
      rw [heq]
      simp
    · rename_i p2 heq
      rw [heq]
      exact ih p2 q
    · rename_i p2 heq
      rw [heq]
      simp only [Option.some.injEq, Prod.mk.injEq]
      constructor
      · rintro ⟨-, h2⟩
        exact absurd h2 (by decide)
      · rintro ⟨h, -⟩
        exact Option.noConfusion h

/-- Every verdict the loop returns is "Accepted" or "Rejected". -/
lemma runLoop_binary (l : List Symbol) :
    ∀ (p q : PDASimulator) (v : String), runLoop p l = some (q, v) →
      v = "Accepted" ∨ v = "Rejected" := by
  induction l with
  | nil =>
    intro p q v h
    simp only [runLoop, Option.some.injEq, Prod.mk.injEq] at h
    obtain ⟨-, h2⟩ := h
    split at h2
    · exact Or.inl h2.symm
    · exact Or.inr h2.symm
  | cons symbol rest ih =>
    intro p q v h
    unfold runLoop at h
    split at h
    · exact Option.noConfusion h
    · rename_i p2 heq
      exact ih p2 q v h
    · simp only [Option.some.injEq, Prod.mk.injEq] at h
      exact Or.inr h.2.symm

/-- Splitting the loop at a fully consumed prefix. -/
lemma runLoop_append (l : List Symbol) :
    ∀ p q : PDASimulator, consumeAll p l = some q →
      ∀ t : List Symbol, runLoop p (l ++ t) = runLoop q t := by
  induction l with
  | nil =>
    intro p q h t
    simp only [consumeAll, Option.some.injEq] at h
    subst h
    rfl
  | cons symbol rest ih =>
    intro p q h t
    unfold consumeAll at h
    split at h
    · rename_i p2 heq
      have hred : runLoop p ((symbol :: rest) ++ t) = runLoop p2 (rest ++ t) := by
        simp only [List.cons_append, runLoop, heq]
        rfl
      rw [hred]
      exact ih p2 q h t
    · exact Option.noConfusion h

/-- The loop's final trace length is the starting one plus one record per
`step` call. -/
lemma runLoop_log_length (l : List Symbol) :
    ∀ (p q : PDASimulator) (v : String), runLoop p l = some (q, v) →
      q.log.length = p.log.length + stepCalls p l := by
  induction l with
  | nil =>
    intro p q v h
    simp only [runLoop, Option.some.injEq, Prod.mk.injEq] at h
    obtain ⟨h1, -⟩ := h
    subst h1
    simp [stepCalls]
  | cons symbol rest ih =>
    intro p q v h
    unfold runLoop at h
    unfold stepCalls
    split at h
    · exact Option.noConfusion h
    · rename_i p2 heq
      rw [heq]
      obtain ⟨e, he⟩ := (step_some_inv p symbol p2 true heq).1
      have := ih p2 q v h
      rw [this, he]
      simp
      omega
    · rename_i p2 heq
      rw [heq]
      simp only [Option.some.injEq, Prod.mk.injEq] at h
      obtain ⟨h1, -⟩ := h
      subst h1
      obtain ⟨e, he⟩ := (step_some_inv p symbol p2 false heq).1
      rw [he]
      simp

lemma startLogged_log_length (p : PDASimulator) : (startLogged p).log.length = 1 := rfl

/-- Once a `step` call inside `run` returns `False`, `run` returns
"Rejected" immediately: the symbols after it are never consumed. -/
lemma run_halt_rejected (p : PDASimulator) (s : List Symbol) (symbol : Symbol)
    (rest : List Symbol) (q q' : PDASimulator)
    (h1 : consumeAll (startLogged p) s = some q)
    (h2 : step q symbol = some (q', false)) :
    run p (s ++ symbol :: rest) = some (q', "Rejected") := by
  unfold run
  rw [runLoop_append s (startLogged p) q h1 (symbol :: rest)]
  unfold runLoop
  rw [h2]

lemma run_congr (p q : PDASimulator) (h : SameDef p q) (seq : List Symbol) :
    run p seq = run q seq := by
  have hsl : startLogged p = startLogged q := by
    obtain ⟨h1, h2, h3, h4, h5, h6, h7⟩ := h
    cases p
    cases q
    simp only at h1 h2 h3 h4 h5 h6 h7
    subst h1; subst h2; subst h3; subst h4; subst h5; subst h6; subst h7
    rfl
  unfold run
  rw [hsl]

/-! ### Lemmas specific to the pizza-ordering configuration -/

/-- No transition key carries an absent stack top, so a lookup at an empty
stack always misses. -/
lemma lookupT_none_of_no_none_keys (a : State) (b : Symbol)
    (l : List ((State × Symbol × Option Symbol) × (State × List Symbol)))
    (h : ∀ e ∈ l, e.1.2.2 ≠ (none : Option Symbol)) :
    lookupT (a, b, none) l = none := by
  induction l with
  | nil => rfl
  | cons e rest ih =>
    obtain ⟨k, v⟩ := e
    unfold lookupT
    rw [if_neg, ih (fun e he => h e (List.mem_cons_of_mem _ he))]
    intro hk
    exact h (k, v) (List.mem_cons_self _ _) (by rw [hk])

/-- The accept state `q_done` is the source of no transition rule. -/
lemma q_done_no_transitions (symbol : Symbol) (top : Option Symbol) :
    lookupT ("q_done", symbol, top) transitions = none := by
  simp only [transitions, lookupT]
  rw [if_neg (fun hk => absurd (congrArg Prod.fst hk) (show "q_start" ≠ "q_done" by decide)),
    if_neg (fun hk => absurd (congrArg Prod.fst hk) (show "q_ordering" ≠ "q_done" by decide)),
    if_neg (fun hk => absurd (congrArg Prod.fst hk) (show "q_ordering" ≠ "q_done" by decide)),
    if_neg (fun hk => absurd (congrArg Prod.fst hk) (show "q_ordering" ≠ "q_done" by decide)),
    if_neg (fun hk => absurd (congrArg Prod.fst hk) (show "q_ordering" ≠ "q_done" by decide)),
    if_neg (fun hk => absurd (congrArg Prod.fst hk) (show "q_ordering" ≠ "q_done" by decide))]

/-- Any transition of the pizza configuration either rewrites the sentinel
top into `["O", "Z0"]` or pops a non-sentinel top and pushes no sentinel. -/
lemma transitions_sentinel_cases (a : State) (b : Symbol) (c : Option Symbol)
    (next_state : State) (push_symbols : List Symbol)
    (h : lookupT (a, b, c) transitions = some (next_state, push_symbols)) :
    (c = some "Z0" ∧ push_symbols = ["O", "Z0"]) ∨
      (c ≠ some "Z0" ∧ "Z0" ∉ push_symbols) := by
  simp only [transitions, lookupT] at h
  split_ifs at h with h1 h2 h3 h4 h5 h6
  · injection h1 with ha hr
    injection hr with hb hc
    injection Option.some.inj h with hn hp
    subst hc; subst hp
    exact Or.inl ⟨rfl, rfl⟩
  · injection h2 with ha hr
    injection hr with hb hc
    injection Option.some.inj h with hn hp
    subst hc; subst hp
    exact Or.inr ⟨by decide, by decide⟩
  · injection h3 with ha hr
    injection hr with hb hc
    injection Option.some.inj h with hn hp
    subst hc; subst hp
    exact Or.inr ⟨by decide, by decide⟩
  · injection h4 with ha hr
    injection hr with hb hc
    injection Option.some.inj h with hn hp
    subst hc; subst hp
    exact Or.inr ⟨by decide, by decide⟩
  · injection h5 with ha hr
    injection hr with hb hc
    injection Option.some.inj h with hn hp
    subst hc; subst hp
    exact Or.inr ⟨by decide, by decide⟩
  · injection h6 with ha hr
    injection hr with hb hc
    injection Option.some.inj h with hn hp
    subst hc; subst hp
    exact Or.inr ⟨by decide, by decide⟩

lemma pizzaStack_cons_ne (top : Symbol) (rest : List Symbol)
    (h : PizzaStack (top :: rest)) (hne : top ≠ "Z0") : PizzaStack rest := by
  obtain ⟨m, hm, hz⟩ := h
  cases m with
  | nil =>
    simp only [List.nil_append, List.cons.injEq] at hm
    exact absurd hm.1 hne
  | cons a m2 =>
    simp only [List.cons_append, List.cons.injEq] at hm
    exact ⟨m2, hm.2, fun hc => hz (List.mem_cons_of_mem _ hc)⟩

lemma pizzaStack_sentinel_top (rest : List Symbol)
    (h : PizzaStack ("Z0" :: rest)) : rest = [] := by
  obtain ⟨m, hm, hz⟩ := h
  cases m with
  | nil =>
    simpa using hm
  | cons a m2 =>
    simp only [List.cons_append, List.cons.injEq] at hm
    refine absurd ?_ hz
    rw [← hm.1]
    exact List.mem_cons_self _ _

lemma pizzaStack_append (push_symbols rest : List Symbol)
    (hz : "Z0" ∉ push_symbols) (h : PizzaStack rest) :
    PizzaStack (push_symbols ++ rest) := by
  obtain ⟨m, hm, hzm⟩ := h
  refine ⟨push_symbols ++ m, by rw [hm, List.append_assoc], ?_⟩
  simp only [List.mem_append]
  rintro (hc | hc)
  · exact hz hc
  · exact hzm hc

/-- A returning `step` of the pizza configuration preserves the sentinel
stack shape. -/
lemma step_pizza_stack (p q : PDASimulator) (symbol : Symbol) (b : Bool)
    (htr : p.transitions = transitions) (hs : PizzaStack p.stack)
    (h : step p symbol = some (q, b)) : PizzaStack q.stack := by
  obtain ⟨-, -, hstack, -⟩ := step_some_inv p symbol q b h
  rcases hstack with heq | ⟨popped, rest, next_state, push_symbols, hstk, hlk, hq, -⟩
  · rw [heq]
    exact hs
  · rw [htr] at hlk
    rw [hstk] at hs
    rw [hq]
    rcases transitions_sentinel_cases _ _ _ _ _ hlk with ⟨hc, hpush⟩ | ⟨hc, hpush⟩
    · have hpop : popped = "Z0" := by
        injection hc
      subst hpop
      have := pizzaStack_sentinel_top rest hs
      subst this
      rw [hpush]
      exact ⟨["O"], rfl, by decide⟩
    · have hpop : popped ≠ "Z0" := fun hh => hc (by rw [hh])
      exact pizzaStack_append push_symbols rest hpush (pizzaStack_cons_ne popped rest hs hpop)

/-- Consuming any list of symbols from a pizza-configuration state with a
sentinel-shaped stack keeps the stack sentinel-shaped. -/
lemma consumeAll_pizza_stack (l : List Symbol) :
    ∀ p q : PDASimulator, p.transitions = transitions → PizzaStack p.stack →
      consumeAll p l = some q → PizzaStack q.stack := by
  induction l with
  | nil =>
    intro p q htr hs h
    simp only [consumeAll, Option.some.injEq] at h
    subst h
    exact hs
  | cons symbol rest ih =>
    intro p q htr hs h
    unfold consumeAll at h
    split at h
    · rename_i p2 heq
      have htr2 : p2.transitions = transitions :=
        ((step_some_inv p symbol p2 true heq).2.1.2.2.2.1).trans htr
      exact ih p2 q htr2 (step_pizza_stack p p2 symbol true htr hs heq) h
    · exact Option.noConfusion h

/-! ### The claims -/

/-- C1: for every Definition and input sequence, `run` returns "Accepted"
exactly when every symbol is processed by a transition-applying step and
the final `current_state` is an accept state; every returned verdict is
"Accepted" or "Rejected"; a step returning `False` makes `run` return
"Rejected" on the spot, and a fully consumed sequence ending outside the
accept states also yields "Rejected". -/
theorem run_acceptance_law (p : PDASimulator) (seq : List Symbol) :
    ((∃ q, run p seq = some (q, "Accepted")) ↔
      (∃ q, consumeAll (startLogged p) seq = some q ∧ q.current_state ∈ p.accept_states))
    ∧ (∀ q v, run p seq = some (q, v) → v = "Accepted" ∨ v = "Rejected")
    ∧ (∀ s symbol rest q q', seq = s ++ symbol :: rest →
        consumeAll (startLogged p) s = some q → step q symbol = some (q', false) →
        run p seq = some (q', "Rejected"))
    ∧ (∀ q, consumeAll (startLogged p) seq = some q → q.current_state ∉ p.accept_states →
        run p seq = some (q, "Rejected")) := by
  refine ⟨⟨?_, ?_⟩, ?_, ?_, ?_⟩
  · rintro ⟨q, hq⟩
    obtain ⟨h1, h2⟩ := (runLoop_accepted seq (startLogged p) q).mp hq
    have hacc : q.accept_states = p.accept_states :=
      (consumeAll_sameDef seq (startLogged p) q h1).2.2.2.2.2.2
    rw [hacc] at h2
    exact ⟨q, h1, h2⟩
  · rintro ⟨q, h1, h2⟩
    have hacc : q.accept_states = p.accept_states :=
      (consumeAll_sameDef seq (startLogged p) q h1).2.2.2.2.2.2
    rw [← hacc] at h2
    exact ⟨q, (runLoop_accepted seq (startLogged p) q).mpr ⟨h1, h2⟩⟩
  · intro q v h
    exact runLoop_binary seq (startLogged p) q v h
  · intro s symbol rest q q' hseq h1 h2
    rw [hseq]
    exact run_halt_rejected p s symbol rest q q' h1 h2
  · intro q h1 h2
    have hacc : q.accept_states = p.accept_states :=
      (consumeAll_sameDef seq (startLogged p) q h1).2.2.2.2.2.2
    have hred := runLoop_append seq (startLogged p) q h1 []
    rw [List.append_nil] at hred
    unfold run
    rw [hred]
    unfold runLoop
    rw [if_neg (by rw [hacc]; exact h2)]

/-- C2: a `step` whose symbol is in the input alphabet and whose
`(current_state, symbol, stack-top)` triple has a transition pops exactly
the top, prepends the push sequence in order (so its head becomes the new
top, an empty sequence being a pure pop), moves to the transition's next
state, appends one record, and returns `True`. -/
theorem step_applies_transition (p : PDASimulator) (symbol popped : Symbol)
    (rest : List Symbol) (next_state : State) (push_symbols : List Symbol)
    (hmem : symbol ∈ p.input_alphabet) (hstk : p.stack = popped :: rest)
    (hlk : lookupT (p.current_state, symbol, some popped) p.transitions =
      some (next_state, push_symbols)) :
    ∃ q, step p symbol = some (q, true) ∧ q.current_state = next_state ∧
      q.stack = push_symbols ++ rest ∧ ∃ e, q.log = p.log ++ [e] := by
  have hlk2 : lookupT (p.current_state, symbol, p.stack.head?) p.transitions =
      some (next_state, push_symbols) := by
    rw [hstk]
    exact hlk
  exact ⟨_, step_of_apply p symbol popped rest next_state push_symbols hmem hstk hlk2,
    rfl, rfl, _, rfl⟩

/-- C2 witness: the first transition of the pizza configuration applied at
the initial configuration. -/
theorem step_applies_transition_witness :
    ∃ q, step (startLogged pizza_bot) "order" = some (q, true) ∧
      q.current_state = "q_ordering" ∧ q.stack = ["O", "Z0"] ++ [] ∧
      ∃ e, q.log = (startLogged pizza_bot).log ++ [e] :=
  step_applies_transition (startLogged pizza_bot) "order" "Z0" [] "q_ordering"
    ["O", "Z0"] (by decide) rfl (by decide)

/-- C3: a `step` that takes the invalid-symbol branch or the no-transition
branch leaves `current_state` and the stack exactly as they were, appends
one record, and returns `False`. -/
theorem step_halt_frame (p : PDASimulator) (symbol : Symbol)
    (h : symbol ∉ p.input_alphabet ∨
      lookupT (p.current_state, symbol, p.stack.head?) p.transitions = none) :
    ∃ q e, step p symbol = some (q, false) ∧ q.current_state = p.current_state ∧
      q.stack = p.stack ∧ q.log = p.log ++ [e] := by
  by_cases hmem : symbol ∈ p.input_alphabet
  · have hlk := h.resolve_left (not_not_intro hmem)
    exact ⟨_, _, step_of_stuck p symbol hmem hlk, rfl, rfl, rfl⟩
  · exact ⟨_, _, step_of_not_mem p symbol hmem, rfl, rfl, rfl⟩

/-- C3 witness: feeding "pizza" at the initial pizza configuration finds no
transition (spec scenario 4) and freezes state and stack. -/
theorem step_halt_frame_witness :
    ∃ q e, step (startLogged pizza_bot) "pizza" = some (q, false) ∧
      q.current_state = (startLogged pizza_bot).current_state ∧
      q.stack = (startLogged pizza_bot).stack ∧
      q.log = (startLogged pizza_bot).log ++ [e] :=
  step_halt_frame (startLogged pizza_bot) "pizza" (Or.inr (by decide))

/-- C4: the Start record makes the trace length 1 before any step; every
returning `step` call appends exactly one record; a completed `run`'s
trace length is the number of step calls plus one; and once a step
returns `False`, `run` returns "Rejected" without consuming the remaining
symbols. -/
theorem trace_discipline (p : PDASimulator) :
    (startLogged p).log.length = 1
    ∧ (∀ symbol q b, step p symbol = some (q, b) → ∃ e, q.log = p.log ++ [e])
    ∧ (∀ seq q v, run p seq = some (q, v) → q.log.length = stepCalls (startLogged p) seq + 1)
    ∧ (∀ s symbol rest q q', consumeAll (startLogged p) s = some q →
        step q symbol = some (q', false) →
        run p (s ++ symbol :: rest) = some (q', "Rejected")) := by
  refine ⟨rfl, ?_, ?_, ?_⟩
  · intro symbol q b h
    exact (step_some_inv p symbol q b h).1
  · intro seq q v h
    have := runLoop_log_length seq (startLogged p) q v h
    rw [startLogged_log_length] at this
    omega
  · intro s symbol rest q q' h1 h2
    exact run_halt_rejected p s symbol rest q q' h1 h2

/-- C5 counterexample: `__init__` performs no validation, so a Definition
whose `start_state` is not in `states` is constructed completely and
silently — no `ConfigurationError` exists anywhere in the source. -/
theorem mkPDASimulator_accepts_malformed :
    ("q_missing" ∉ (mkPDASimulator ["q0"] ["a"] ["Z"] [] "q_missing" "Z" []).states)
    ∧ (mkPDASimulator ["q0"] ["a"] ["Z"] [] "q_missing" "Z" []).start_state = "q_missing"
    ∧ (mkPDASimulator ["q0"] ["a"] ["Z"] [] "q_missing" "Z" []).current_state = "q_missing"
    ∧ (mkPDASimulator ["q0"] ["a"] ["Z"] [] "q_missing" "Z" []).stack = ["Z"]
    ∧ (mkPDASimulator ["q0"] ["a"] ["Z"] [] "q_missing" "Z" []).log = [] := by
  decide

/-- C5 as amended: construction never fails; whatever the arguments — even
with `start_state ∉ states` — the simulator produced stores exactly the
given components and the freshly reset run state. -/
theorem mkPDASimulator_no_validation (sts : List State) (ia sa : List Symbol)
    (tr : List ((State × Symbol × Option Symbol) × (State × List Symbol)))
    (ss : State) (sss : Symbol) (ac : List State) (hbad : ss ∉ sts) :
    mkPDASimulator sts ia sa tr ss sss ac =
      { states := sts, input_alphabet := ia, stack_alphabet := sa, transitions := tr,
        start_state := ss, start_stack_symbol := sss, accept_states := ac,
        current_state := ss, stack := [sss], log := [] }
    ∧ (mkPDASimulator sts ia sa tr ss sss ac).start_state ∉
        (mkPDASimulator sts ia sa tr ss sss ac).states :=
  ⟨rfl, hbad⟩

/-- C5 witness for the amended claim, at a concrete malformed Definition. -/
theorem mkPDASimulator_no_validation_witness :
    mkPDASimulator ["q0"] ["a"] ["Z"] [] "q_missing" "Z" [] =
      { states := ["q0"], input_alphabet := ["a"], stack_alphabet := ["Z"],
        transitions := [], start_state := "q_missing", start_stack_symbol := "Z",
        accept_states := [], current_state := "q_missing", stack := ["Z"], log := [] }
    ∧ (mkPDASimulator ["q0"] ["a"] ["Z"] [] "q_missing" "Z" []).start_state ∉
        (mkPDASimulator ["q0"] ["a"] ["Z"] [] "q_missing" "Z" []).states :=
  mkPDASimulator_no_validation ["q0"] ["a"] ["Z"] [] "q_missing" "Z" [] (by decide)

/-- C6: in every reachable configuration of a pizza-ordering run the stack
is non-empty and still carries the sentinel `Z0` at its bottom (the only
transition that pops `Z0` immediately re-pushes it). -/
theorem pizza_stack_never_empty (syms : List Symbol) (q : PDASimulator)
    (h : consumeAll (startLogged pizza_bot) syms = some q) :
    q.stack ≠ [] ∧ q.stack.getLast? = some "Z0" := by
  have hps : PizzaStack q.stack :=
    consumeAll_pizza_stack syms (startLogged pizza_bot) q rfl ⟨[], rfl, by decide⟩ h
  obtain ⟨m, hm, -⟩ := hps
  constructor
  · rw [hm]
    simp
  · rw [hm]
    simp

/-- C6 witness: the initial configuration itself. -/
theorem pizza_stack_never_empty_witness :
    (startLogged pizza_bot).stack ≠ [] ∧
      (startLogged pizza_bot).stack.getLast? = some "Z0" :=
  pizza_stack_never_empty [] (startLogged pizza_bot) rfl

/-- C7: the demonstration input `order pizza toppings done done pay` is
Accepted with a 7-record trace, and the stack right after the `order`
step is `[O, Z0]` (top first). -/
theorem pizza_demo_run :
    (run pizza_bot ["order", "pizza", "toppings", "done", "done", "pay"]).map
        (fun r => (r.2, r.1.log.length)) = some ("Accepted", 7)
    ∧ (step (startLogged pizza_bot) "order").map (fun r => (r.1.stack, r.2)) =
        some (["O", "Z0"], true) := by
  decide

/-- C8: `run` resets before doing anything, so its verdict and trace depend
only on the Definition and the sequence: simulators sharing a Definition
give identical results, and a second `run` on the simulator returned by a
prior `run` (whatever that run left behind) equals a fresh one. -/
theorem run_depends_only_on_definition (p q : PDASimulator) (seq : List Symbol)
    (hdef : SameDef p q) :
    run p seq = run q seq ∧
      ∀ s1 p1 v, run p s1 = some (p1, v) → run p1 seq = run p seq := by
  refine ⟨run_congr p q hdef seq, ?_⟩
  intro s1 p1 v h
  have h1 : SameDef p1 (startLogged p) := runLoop_sameDef s1 (startLogged p) p1 v h
  have h2 : SameDef p1 p := sameDef_trans p1 (startLogged p) p h1 (startLogged_sameDef p)
  exact run_congr p1 p h2 seq

/-- C8 witness: the pizza simulator against its own started copy. -/
theorem run_depends_only_on_definition_witness :
    run pizza_bot ["order"] = run (startLogged pizza_bot) ["order"] ∧
      ∀ s1 p1 v, run pizza_bot s1 = some (p1, v) →
        run p1 ["order"] = run pizza_bot ["order"] :=
  run_depends_only_on_definition pizza_bot (startLogged pizza_bot) ["order"]
    ⟨rfl, rfl, rfl, rfl, rfl, rfl, rfl⟩

/-- C9: for the pizza configuration an accepted sequence has no accepted
proper extension: acceptance ends in `q_done`, which no transition
leaves, so the next symbol halts (invalid or stuck) and the whole run is
Rejected. -/
theorem pizza_no_accepted_extension (s t : List Symbol) (q : PDASimulator)
    (hacc : run pizza_bot s = some (q, "Accepted")) (ht : t ≠ []) :
    ∃ q2, run pizza_bot (s ++ t) = some (q2, "Rejected") := by
  obtain ⟨hcons, hmem⟩ := (runLoop_accepted s (startLogged pizza_bot) q).mp hacc
  have hsd : SameDef q (startLogged pizza_bot) :=
    consumeAll_sameDef s (startLogged pizza_bot) q hcons
  have hq : q.current_state = "q_done" := by
    have hacc2 : q.accept_states = accept_states := hsd.2.2.2.2.2.2
    rw [hacc2] at hmem
    simpa [accept_states] using hmem
  have htr : q.transitions = transitions := hsd.2.2.2.1
  cases t with
  | nil => exact absurd rfl ht
  | cons symbol rest =>
    have hred : run pizza_bot (s ++ symbol :: rest) = runLoop q (symbol :: rest) :=
      runLoop_append s (startLogged pizza_bot) q hcons (symbol :: rest)
    by_cases hm : symbol ∈ q.input_alphabet
    · have hlk : lookupT (q.current_state, symbol, q.stack.head?) q.transitions = none := by
        rw [htr, hq]
        exact q_done_no_transitions symbol q.stack.head?
      have hstep := step_of_stuck q symbol hm hlk
      refine ⟨{ q with log := q.log ++ [stuck_entry q symbol] }, ?_⟩
      rw [hred]
      unfold runLoop
      rw [hstep]
    · have hstep := step_of_not_mem q symbol hm
      refine ⟨{ q with log := q.log ++ [invalid_entry q symbol] }, ?_⟩
      rw [hred]
      unfold runLoop
      rw [hstep]

/-- C9 witness: `order pay` is accepted, and extending it by one more
`order` is rejected. -/
theorem pizza_no_accepted_extension_witness :
    ∃ q2, run pizza_bot (["order", "pay"] ++ ["order"]) = some (q2, "Rejected") :=
  pizza_no_accepted_extension ["order", "pay"] ["order"] _ rfl (by decide)

/-- C10 counterexample: with the pizza Definition (none of whose transition
keys has an absent stack top) and an empty stack, a symbol outside the
input alphabet takes the invalid-symbol branch ("Halted 🛑"), not the
no-transition branch ("Stuck ❌"). -/
theorem step_empty_stack_invalid_symbol :
    (step pizza_empty "xyz").map (fun r => (r.1.log.map LogEntry.result, r.2)) =
      some (["Halted 🛑"], false)
    ∧ pizza_empty.stack = []
    ∧ (∀ e ∈ pizza_empty.transitions, e.1.2.2 ≠ (none : Option Symbol))
    ∧ "Halted 🛑" ≠ "Stuck ❌" := by
  decide

/-- C10 as amended: the peek is guarded, so on an empty stack a `step`
under a Definition without absent-top transition keys never attempts the
pop and never raises: it freezes the configuration, appends one record
and returns `False` — through the no-transition (Stuck) branch when the
symbol is in the input alphabet, and through the invalid-symbol branch
otherwise. -/
theorem step_empty_stack_total (p : PDASimulator) (symbol : Symbol)
    (hkeys : ∀ e ∈ p.transitions, e.1.2.2 ≠ (none : Option Symbol))
    (hstack : p.stack = []) :
    (∃ q e, step p symbol = some (q, false) ∧ q.current_state = p.current_state ∧
      q.stack = p.stack ∧ q.log = p.log ++ [e])
    ∧ (symbol ∈ p.input_alphabet →
        step p symbol = some ({ p with log := p.log ++ [stuck_entry p symbol] }, false)) := by
  have hlk : lookupT (p.current_state, symbol, p.stack.head?) p.transitions = none := by
    rw [hstack]
    exact lookupT_none_of_no_none_keys p.current_state symbol p.transitions hkeys
  refine ⟨?_, fun hm => step_of_stuck p symbol hm hlk⟩
  by_cases hm : symbol ∈ p.input_alphabet
  · exact ⟨_, _, step_of_stuck p symbol hm hlk, rfl, rfl, rfl⟩
  · exact ⟨_, _, step_of_not_mem p symbol hm, rfl, rfl, rfl⟩

/-- C10 witness: the emptied pizza simulator, fed the in-alphabet symbol
`order`. -/
theorem step_empty_stack_total_witness :
    (∃ q e, step pizza_empty "order" = some (q, false) ∧
      q.current_state = pizza_empty.current_state ∧
      q.stack = pizza_empty.stack ∧ q.log = pizza_empty.log ++ [e])
    ∧ ("order" ∈ pizza_empty.input_alphabet →
        step pizza_empty "order" =
          some ({ pizza_empty with
            log := pizza_empty.log ++ [stuck_entry pizza_empty "order"] }, false)) :=
  step_empty_stack_total pizza_empty "order" (by decide) rfl

end TOC
